import Mathlib

/-!
# Verification of the hexvar canonicalization engine

A shallow embedding of `src/main.rs` (the `hexvar` tool): the hex literal
parser, the perceptual clustering engine, the name resolver, the mapping
store, and the replacement engine, together with theorems settling the
frozen claims about the specification.

Modelling conventions:

* Rust `String`s are modelled as Lean `String`/`List Char`.  All literals the
  program manipulates are ASCII (they are produced by the scanning regex
  `#(?:[0-9a-fA-F]{8}|[0-9a-fA-F]{6}|[0-9a-fA-F]{3})`), so byte indexing in
  the Rust source coincides with character indexing here.
* The CIE Lab color type of the `palette` crate is modelled as a triple of
  rationals (`LabC`).  The conversion `Srgb -> Lab` performed by the external
  `palette` crate (f32 arithmetic, not part of this repository) is kept as an
  explicit function parameter `toLab`; the clustering algorithm itself is
  translated verbatim from the source.  `Lab::delta_e` for `palette`'s `Lab`
  is the CIE76 Euclidean distance; the source's comparison
  `lab.delta_e(canon_lab) < 10.0` is modelled as `deltaESq lab canon < 100`,
  which is equivalent because the Euclidean distance is nonnegative and
  squaring is strictly monotone on nonnegative reals.
* `serde_json` (also an external crate) is modelled at the JSON document
  level by the inductive `Json`; serialization of a mapping and parsing it
  back are `saveMapping`/`loadMapping`.
* The regex `(?i)<escaped hex literal>` used by the replacement engine
  performs literal matching up to Unicode simple case folding.  Because every
  pattern character is one of `#`, `0`-`9`, `a`-`f`, a text character can
  only fold onto a pattern character if it is that character or its ASCII
  uppercase, so folding with `lowHex` (ASCII lower-casing of `A`-`F`) is
  semantically identical to the regex's folding for these patterns.
-/

/-! ## Characters and case-insensitive matching -/

abbrev Str := List Char

/-- ASCII lower-casing restricted to `A`-`F`, the only characters whose case
folding matters when matching hex color tokens (see the header comment). -/
def lowHex (c : Char) : Char :=
  if c = 'A' then 'a' else if c = 'B' then 'b' else if c = 'C' then 'c'
  else if c = 'D' then 'd' else if c = 'E' then 'e' else if c = 'F' then 'f'
  else c

/-- Case-insensitive image of a string, as used for matching hex tokens. -/
def lcStr (s : Str) : Str := s.map lowHex

/-- Does the (lower-case) pattern `key` match at the front of `t`,
case-insensitively?  This is regex `(?i)` literal matching for hex tokens. -/
def lcMatches (key t : Str) : Bool := decide (lcStr (t.take key.length) = key)

/-- A lower-case hex digit (as stored in the tool's maps, which are built
with `to_lowercase`). -/
def isLowerHexDigit (c : Char) : Bool :=
  (decide ('0' ≤ c) && decide (c ≤ '9')) || (decide ('a' ≤ c) && decide (c ≤ 'f'))

/-- The shape of every key of the replacement engine's `hex_to_var` map: a
`#` followed by at least one lower-case hex digit. -/
def IsHexKey (key : Str) : Prop :=
  key.head? = some '#' ∧ key.tail ≠ [] ∧ ∀ c ∈ key.tail, isLowerHexDigit c = true

instance : DecidablePred IsHexKey := fun key => by
  unfold IsHexKey; infer_instance

/-- The shape of every replacement string the engine inserts
(`var(--color-...)` wrappers): nonempty, free of `#`, and starting with a
character that does not case-fold to a hex digit — so a later
case-insensitive pass for a hex key can never match into inserted text. -/
def GoodRepl (r : Str) : Prop :=
  r ≠ [] ∧ '#' ∉ r ∧ r.head?.all (fun c => ! isLowerHexDigit (lowHex c)) = true

instance : DecidablePred GoodRepl := fun r => by
  unfold GoodRepl; infer_instance

/-! ## Hex parser

Two variants appear in the source:

* the clustering pre-pass (`main.rs` lines 140-156) parses each channel with
  `u8::from_str_radix(..).unwrap_or(0)` — an invalid digit yields channel 0;
* the name resolver's local `hex_to_rgb` (lines 190-207) uses `.ok()?` — an
  invalid digit makes the whole parse fail.

Both accept only 3 or 6 hex digits after stripping leading `#`s
(`trim_start_matches('#')`); every other length (including 8) falls through
to `_ => ...` and is rejected. -/

def hexDigitVal (c : Char) : Option Nat :=
  if '0' ≤ c ∧ c ≤ '9' then some (c.toNat - '0'.toNat)
  else if 'a' ≤ c ∧ c ≤ 'f' then some (c.toNat - 'a'.toNat + 10)
  else if 'A' ≤ c ∧ c ≤ 'F' then some (c.toNat - 'A'.toNat + 10)
  else none

/-- `u8::from_str_radix(<two hex chars>, 16).unwrap_or(0)`. -/
def channel2 (c₁ c₂ : Char) : Nat :=
  match hexDigitVal c₁, hexDigitVal c₂ with
  | some x, some y => 16 * x + y
  | _, _ => 0

/-- `canon.trim_start_matches('#')` on a hex literal. -/
def stripHash (s : String) : Str := s.data.dropWhile (· == '#')

/-- The clustering pre-pass parser (`main.rs` 140-156): 3-digit literals
expand each nibble by duplication, 6-digit literals parse pairs, anything
else (`_ => continue`) yields `none` and the literal is skipped. -/
def parseHexRgb (s : String) : Option (Nat × Nat × Nat) :=
  match stripHash s with
  | [a, b, c] => some (channel2 a a, channel2 b b, channel2 c c)
  | [r₁, r₂, g₁, g₂, b₁, b₂] =>
      some (channel2 r₁ r₂, channel2 g₁ g₂, channel2 b₁ b₂)
  | _ => none

/-- The name resolver's `hex_to_rgb` (`main.rs` 190-207): `.ok()?` semantics,
an invalid digit fails the whole parse. -/
def hexToRgb (s : String) : Option (Nat × Nat × Nat) :=
  match stripHash s with
  | [a, b, c] =>
      match hexDigitVal a, hexDigitVal b, hexDigitVal c with
      | some x, some y, some z => some (17 * x, 17 * y, 17 * z)
      | _, _, _ => none
  | [r₁, r₂, g₁, g₂, b₁, b₂] =>
      match hexDigitVal r₁, hexDigitVal r₂, hexDigitVal g₁,
            hexDigitVal g₂, hexDigitVal b₁, hexDigitVal b₂ with
      | some x₁, some x₂, some y₁, some y₂, some z₁, some z₂ =>
          some (16 * x₁ + x₂, 16 * y₁ + y₂, 16 * z₁ + z₂)
      | _, _, _, _, _, _ => none
  | _ => none

/-! ## Perceptual distance and clustering engine (`main.rs` 134-177) -/

/-- A CIE Lab color, the cached "canonical color" of a cluster. -/
structure LabC where
  l : ℚ
  a : ℚ
  b : ℚ
deriving DecidableEq, Repr

/-- Squared CIE76 color difference; `palette`'s `Lab::delta_e` is its square
root. -/
def deltaESq (x y : LabC) : ℚ :=
  (x.l - y.l) ^ 2 + (x.a - y.a) ^ 2 + (x.b - y.b) ^ 2

/-- The source's test `lab.delta_e(*canon_lab) < delta_e_threshold` with
`delta_e_threshold = 10.0`, stated on squares (`d < 10 ↔ d² < 100` for the
nonnegative Euclidean distance).  Note the strictly-less comparison. -/
def withinThreshold (x y : LabC) : Bool := decide (deltaESq x y < 100)

/-- The lookup `hex_lab.get(hex)`: the Lab value of a literal, `none` when
the literal was skipped by the pre-pass parser.  `toLab` is the external
`palette` conversion `Srgb::new(r/255, g/255, b/255) -> Lab`. -/
def hexLabOf (toLab : Nat × Nat × Nat → LabC) (hex : String) : Option LabC :=
  (parseHexRgb hex).map toLab

/-- The inner loop of `main.rs` 163-169: scan the clusters in creation order
and return the canonical of the first cluster strictly within the
threshold. -/
def findCanonical (lab : LabC) : List (String × LabC) → Option String
  | [] => none
  | (canonHex, canonLab) :: rest =>
      if withinThreshold lab canonLab then some canonHex
      else findCanonical lab rest

/-- The clustering engine's mutable state: `clusters : Vec<(String, Lab)>`
(in creation order) and the `hex_to_canonical` assignment map (modelled as an
association list in insertion order; its keys — the distinct discovered
literals — are distinct, so this is faithful to the `HashMap`). -/
structure ClusterState where
  clusters : List (String × LabC)
  hexToCanonical : List (String × String)
deriving DecidableEq, Repr

/-- One iteration of the clustering loop (`main.rs` 161-177) for one
literal. -/
def clusterStep (labOf : String → Option LabC) (st : ClusterState)
    (hex : String) : ClusterState :=
  match labOf hex with
  | none => st
  | some lab =>
      match findCanonical lab st.clusters with
      | some canonHex =>
          { st with hexToCanonical := st.hexToCanonical ++ [(hex, canonHex)] }
      | none =>
          { clusters := st.clusters ++ [(hex, lab)],
            hexToCanonical := st.hexToCanonical ++ [(hex, hex)] }

/-- The clustering engine: fold the loop over the discovered distinct
literals in enumeration order.  In the source the enumeration order is the
iteration order of `counts.keys()` (a `std::collections::HashMap`). -/
def clusterHexes (labOf : String → Option LabC) (hexes : List String) :
    ClusterState :=
  hexes.foldl (clusterStep labOf) ⟨[], []⟩

/-! ## Name resolver (`main.rs` 179-233) -/

/-- `name.replace('_', "-")`. -/
def dashName (n : String) : String :=
  ⟨n.data.map (fun c => if c = '_' then '-' else c)⟩

/-- `css_hex.eq_ignore_ascii_case(canon_hex)`.  For hex literal strings
(characters among `#0-9a-fA-F`) ASCII-case-insensitive equality coincides
with equality of `lowHex` images. -/
def eqIgnoreCase (a b : String) : Bool :=
  decide (a.data.map lowHex = b.data.map lowHex)

/-- The fallback search of `main.rs` 212-224: the first named color at
minimal squared Euclidean RGB distance (strict `<` keeps the first
minimum; `min_dist` starts at `u32::MAX`). -/
def nearestName (table : List (String × String)) (r g b : Nat) :
    Option String :=
  (table.foldl
    (fun (acc : Int × Option String) p =>
      match hexToRgb p.2 with
      | none => acc
      | some (cr, cg, cb) =>
          let dist : Int :=
            ((r : Int) - cr) ^ 2 + ((g : Int) - cg) ^ 2 + ((b : Int) - cb) ^ 2
          if dist < acc.1 then (dist, some p.1) else acc)
    (4294967295, none)).2

/-- The name resolver (`main.rs` 180-230): exact case-insensitive match
first, then nearest named color by squared RGB distance, then the literal's
own hex digits. -/
def resolveVar (table : List (String × String)) (canonHex : String) : String :=
  match table.find? (fun p => eqIgnoreCase p.2 canonHex) with
  | some p => "--color-" ++ dashName p.1
  | none =>
      match hexToRgb canonHex with
      | none => "--color-" ++ String.mk (lcStr (stripHash canonHex))
      | some (r, g, b) =>
          match nearestName table r g b with
          | some name => "--color-" ++ dashName name
          | none => "--color-" ++ String.mk (lcStr (stripHash canonHex))

/-- Modelled from the spec: the repository module `css_color_names`
(declared by `mod css_color_names;`, providing the static table
`CSS_COLOR_NAMES`) is not among the provided sources.  The spec (§3
NamedColorTable, §8 Scenario A) describes it as a fixed table from CSS color
names to reference hex literals and names the entries `red`, `green` and
`lime`; we model the table with those standard CSS values. -/
def cssColorNames : List (String × String) :=
  [("red", "#FF0000"), ("green", "#008000"), ("lime", "#00FF00")]

/-- The per-cluster lines of the emitted canonical stylesheet
(`main.rs` 231: `format!("    {}: {};", var, canon_hex)`). -/
def cssLines (table : List (String × String)) (canons : List String) :
    List String :=
  canons.map (fun ch => "    " ++ resolveVar table ch ++ ": " ++ ch ++ ";")

/-! ## Mapping store (`main.rs` 236-251 and 294-300)

`serde_json` (external crate) reliably round-trips a JSON document between
its text form and its tree form; we model the store at the tree level.
`canonical_map : HashMap<String, Vec<String>>` is serialized as a JSON
object mapping each canonical literal to the array of its members, and the
replace phase deserializes a `HashMap<String, Vec<String>>` back. -/

inductive Json where
  | str : String → Json
  | num : Int → Json
  | arr : List Json → Json
  | obj : List (String × Json) → Json

/-- `serde_json::to_writer_pretty(file, &canonical_map)`, at tree level. -/
def saveMapping (m : List (String × List String)) : Json :=
  .obj (m.map (fun p => (p.1, .arr (p.2.map .str))))

def jsonToStr : Json → Option String
  | .str s => some s
  | _ => none

def jsonToStrList : Json → Option (List String)
  | .arr vs => vs.mapM jsonToStr
  | _ => none

/-- `serde_json::from_str::<HashMap<String, Vec<String>>>`, at tree level:
the document must be an object of arrays of strings. -/
def loadMapping : Json → Option (List (String × List String))
  | .obj entries =>
      entries.mapM (fun p => (jsonToStrList p.2).map (fun ss => (p.1, ss)))
  | _ => none

/-! ## Replacement engine (`main.rs` 288-371) -/

/-- Leftmost, non-overlapping, case-insensitive replacement of every
occurrence of `key` in the text: `Regex::new(&format!("(?i){}",
regex::escape(hex))).replace_all(text, repl)`.  Defined with explicit fuel
(one unit per examined character) so that it is structurally recursive and
kernel-computable; `replaceAll` supplies adequate fuel. -/
def replaceAllF (key repl : Str) : Nat → Str → Str
  | _, [] => []
  | 0, t => t
  | f + 1, c :: t =>
      if key ≠ [] ∧ lcMatches key (c :: t) = true then
        repl ++ replaceAllF key repl f ((c :: t).drop key.length)
      else
        c :: replaceAllF key repl f t

def replaceAll (key repl t : Str) : Str := replaceAllF key repl t.length t

/-- `text.matches(pat).count()`: the number of leftmost non-overlapping
case-sensitive occurrences of `pat`. -/
def countOccurF (pat : Str) : Nat → Str → Nat
  | _, [] => 0
  | 0, _ => 0
  | f + 1, c :: t =>
      if pat ≠ [] ∧ (c :: t).take pat.length = pat then
        1 + countOccurF pat f ((c :: t).drop pat.length)
      else
        countOccurF pat f t

def countOccur (pat t : Str) : Nat := countOccurF pat t.length t

/-- The number of case-insensitive occurrences of `key` that one
`replace_all` pass actually substitutes. -/
def countCIF (key : Str) : Nat → Str → Nat
  | _, [] => 0
  | 0, _ => 0
  | f + 1, c :: t =>
      if key ≠ [] ∧ lcMatches key (c :: t) = true then
        1 + countCIF key f ((c :: t).drop key.length)
      else
        countCIF key f t

def countCI (key t : Str) : Nat := countCIF key t.length t

/-- Is there a case-insensitive occurrence of `key` anywhere in `t`? -/
def hasCIMatch (key : Str) : Str → Bool
  | [] => lcMatches key []
  | c :: t => lcMatches key (c :: t) || hasCIMatch key t

/-- `format!("var({})", var)`. -/
def varWrap (v : Str) : Str := "var(".data ++ v ++ ")".data

/-- One iteration of the per-file loop body (`main.rs` 351-360) for one
`(hex, var)` entry: substitute, then add the occurrence count of the wrapper
in the new text whenever it exceeds the case-sensitive occurrence count of
the (lower-case) literal in the previous text. -/
def replaceStep (acc : Str × Nat) (kv : Str × Str) : Str × Nat :=
  let w := varWrap kv.2
  let newT := replaceAll kv.1 w acc.1
  let cnt := countOccur w newT
  (newT, if countOccur kv.1 acc.1 < cnt then acc.2 + cnt else acc.2)

/-- The whole per-file loop (`main.rs` 349-360): final text and the
`file_replacements` counter. -/
def applyReplacements (m : List (Str × Str)) (t : Str) : Str × Nat :=
  m.foldl replaceStep (t, 0)

/-- The text component of the loop alone. -/
def applyText (m : List (Str × Str)) (t : Str) : Str :=
  m.foldl (fun acc kv => replaceAll kv.1 (varWrap kv.2) acc) t

/-- The per-file outcome (`main.rs` 361-366): the file is rewritten, counted
as changed and its count added to the totals only when
`file_replacements > 0 && replaced != content`.  Result: (content on disk
after the run, contribution to `total_replacements`, counted-as-changed). -/
def fileOutcome (m : List (Str × Str)) (content : Str) : Str × Nat × Bool :=
  let p := applyReplacements m content
  if 0 < p.2 ∧ p.1 ≠ content then (p.1, p.2, true) else (content, 0, false)

/-- `canon.trim_start_matches('#').to_lowercase()` re-prefixed with `#`
(`main.rs` 314-315). -/
def canonCssHex (canon : String) : String :=
  "#" ++ String.mk (lcStr (stripHash canon))

/-- `h.to_lowercase()` for a hex literal string. -/
def lowerLit (h : String) : String := ⟨lcStr h.data⟩

/-- Building `hex_to_var` from the loaded mapping and the `canon_to_var`
table parsed out of `colours.css` (`main.rs` 312-326).  The first canonical
with no matching stylesheet definition aborts the run
(`eprintln! + std::process::exit(1)`), modelled as `Except.error` carrying
the printed message. -/
def buildHexToVar (canonToVar : List (String × String)) :
    List (String × List String) → Except String (List (String × String))
  | [] => .ok []
  | (canon, hexes) :: rest =>
      match List.lookup (canonCssHex canon) canonToVar with
      | none =>
          .error ("No variable name found in colours.css for canonical hex "
            ++ canon)
      | some v =>
          match buildHexToVar canonToVar rest with
          | .error e => .error e
          | .ok tail => .ok ((hexes.map (fun h => (lowerLit h, v))) ++ tail)

/-- The whole replace phase (`main.rs` 288-371) over the already-read file
contents: build `hex_to_var` (fatal error before touching any file when a
canonical has no stylesheet definition), then process each file and
accumulate `total_replacements` and `files_changed`. -/
def replacePhase (canonToVar : List (String × String))
    (m : List (String × List String)) (files : List Str) :
    Except String (List (Str × Nat × Bool) × Nat × Nat) :=
  match buildHexToVar canonToVar m with
  | .error e => .error e
  | .ok h2v =>
      let mm : List (Str × Str) := h2v.map (fun p => (p.1.data, p.2.data))
      let outs := files.map (fun t => fileOutcome mm t)
      .ok (outs, (outs.map (fun o => o.2.1)).sum,
           (outs.filter (fun o => o.2.2)).length)

/-! ## Concrete instances used by counterexamples and witnesses -/

/-- A concrete instance of the external `palette` RGB→Lab conversion used in
counterexamples: it maps the three gray levels appearing there to integral
approximations of their true CIE Lab coordinates (for neutral grays
`a = b = 0`; black has `L = 0`, `#181818` has `L ≈ 8.3`, `#2a2a2a` has
`L ≈ 17.0`). -/
def toLabC2 : Nat × Nat × Nat → LabC
  | (24, 24, 24) => ⟨8, 0, 0⟩
  | (42, 42, 42) => ⟨17, 0, 0⟩
  | _ => ⟨0, 0, 0⟩

/-- A degenerate conversion for witnesses in which the Lab values are
irrelevant. -/
def toLab0 : Nat × Nat × Nat → LabC := fun _ => ⟨0, 0, 0⟩

/-! ## Helper lemmas: case folding and matching -/

theorem lcMatches_eq_true {key t : Str} :
    lcMatches key t = true ↔ lcStr (t.take key.length) = key := by
  simp [lcMatches]

theorem length_le_of_lcMatches {key t : Str} (h : lcMatches key t = true) :
    key.length ≤ t.length := by
  have hlen := congrArg List.length (lcMatches_eq_true.mp h)
  simp only [lcStr, List.length_map, List.length_take] at hlen
  omega

theorem lowHex_hash : lowHex '#' = '#' := by decide

theorem eq_hash_of_lowHex {c : Char} (h : lowHex c = '#') : c = '#' := by
  by_cases h1 : c = 'A'; · subst h1; exact absurd h (by decide)
  by_cases h2 : c = 'B'; · subst h2; exact absurd h (by decide)
  by_cases h3 : c = 'C'; · subst h3; exact absurd h (by decide)
  by_cases h4 : c = 'D'; · subst h4; exact absurd h (by decide)
  by_cases h5 : c = 'E'; · subst h5; exact absurd h (by decide)
  by_cases h6 : c = 'F'; · subst h6; exact absurd h (by decide)
  simpa [lowHex, h1, h2, h3, h4, h5, h6] using h

theorem hash_not_lowerHexDigit : isLowerHexDigit '#' = false := by decide

theorem isHexKey_ne_nil {key : Str} (h : IsHexKey key) : key ≠ [] := by
  rcases h with ⟨h1, -, -⟩
  intro he; subst he; simp at h1

theorem isHexKey_eq_cons {key : Str} (h : IsHexKey key) :
    key = '#' :: key.tail := by
  rcases h with ⟨h1, -, -⟩
  cases key with
  | nil => simp at h1
  | cons c cs => simp at h1; simp [h1]

theorem isHexKey_length {key : Str} (h : IsHexKey key) :
    key.length = key.tail.length + 1 := by
  rw [isHexKey_eq_cons h]; simp

theorem head_hash_of_lcMatches {key : Str} (hk : IsHexKey key) {c : Char}
    {t : Str} (h : lcMatches key (c :: t) = true) : c = '#' := by
  have hm := lcMatches_eq_true.mp h
  rw [isHexKey_length hk, List.take_succ_cons] at hm
  rw [isHexKey_eq_cons hk] at hm
  simp only [lcStr, List.map_cons, List.cons.injEq] at hm
  exact eq_hash_of_lowHex hm.1

theorem lcMatches_eq_false_of_ne_hash {key : Str} (hk : IsHexKey key)
    {c : Char} {t : Str} (h : c ≠ '#') : lcMatches key (c :: t) = false := by
  cases hb : lcMatches key (c :: t) with
  | false => rfl
  | true => exact absurd (head_hash_of_lcMatches hk hb) h

/-! ## Helper lemmas: unfolding `replaceAll` -/

theorem replaceAllF_congr (key repl : Str) :
    ∀ (f₁ f₂ : Nat) (t : Str), t.length ≤ f₁ → t.length ≤ f₂ →
      replaceAllF key repl f₁ t = replaceAllF key repl f₂ t := by
  intro f₁
  induction f₁ with
  | zero =>
      intro f₂ t h1 _
      have : t = [] := List.length_eq_zero.mp (Nat.le_zero.mp h1)
      subst this; cases f₂ <;> rfl
  | succ g ih =>
      intro f₂ t h1 h2
      cases t with
      | nil => cases f₂ <;> rfl
      | cons c t' =>
          cases f₂ with
          | zero => simp at h2
          | succ h =>
              simp only [replaceAllF]
              split
              case isTrue hcond =>
                  have hkey : 1 ≤ key.length :=
                    List.length_pos.mpr hcond.1
                  have hd : ((c :: t').drop key.length).length
                      = t'.length + 1 - key.length := by
                    simp
                  simp only [List.length_cons] at h1 h2
                  refine congrArg _ (ih h _ ?_ ?_) <;> rw [hd] <;> omega
              case isFalse =>
                  simp only [List.length_cons] at h1 h2
                  exact congrArg _ (ih h t' (by omega) (by omega))

theorem replaceAll_nil (key repl : Str) : replaceAll key repl [] = [] := rfl

theorem replaceAll_cons (key repl : Str) (c : Char) (t : Str) :
    replaceAll key repl (c :: t) =
      if key ≠ [] ∧ lcMatches key (c :: t) = true then
        repl ++ replaceAll key repl ((c :: t).drop key.length)
      else c :: replaceAll key repl t := by
  show replaceAllF key repl (t.length + 1) (c :: t) = _
  simp only [replaceAllF]
  split
  case isTrue hcond =>
      have hkey : 1 ≤ key.length := List.length_pos.mpr hcond.1
      have hrw : replaceAllF key repl t.length ((c :: t).drop key.length)
          = replaceAll key repl ((c :: t).drop key.length) := by
        apply replaceAllF_congr
        · simp; omega
        · exact Nat.le_refl _
      rw [hrw]
  case isFalse => rfl

theorem replaceAll_append_hashFree (key repl : Str) (hk : IsHexKey key) :
    ∀ (r s : Str), '#' ∉ r →
      replaceAll key repl (r ++ s) = r ++ replaceAll key repl s := by
  intro r
  induction r with
  | nil => intro s _; rfl
  | cons c r' ih =>
      intro s hr
      have hc : c ≠ '#' := by
        intro he; subst he; exact hr (List.mem_cons_self _ _)
      rw [List.cons_append, replaceAll_cons, lcMatches_eq_false_of_ne_hash hk hc]
      simp only [Bool.false_eq_true, and_false, if_false]
      rw [ih s (fun h => hr (List.mem_cons_of_mem _ h))]
      rfl

theorem replaceAll_eq_self_of_no_match {key repl t : Str}
    (h : hasCIMatch key t = false) : replaceAll key repl t = t := by
  induction t with
  | nil => rfl
  | cons c t' ih =>
      simp only [hasCIMatch, Bool.or_eq_false_iff] at h
      rw [replaceAll_cons, h.1]
      simp only [Bool.false_eq_true, and_false, if_false]
      rw [ih h.2]

theorem replaceAll_skip (key repl : Str) :
    ∀ (n : Nat) (t : Str), (∀ j, j < n → lcMatches key (t.drop j) = false) →
      replaceAll key repl t = t.take n ++ replaceAll key repl (t.drop n) := by
  intro n
  induction n with
  | zero => intro t _; simp
  | succ m ih =>
      intro t h
      cases t with
      | nil => simp [replaceAll_nil]
      | cons c t' =>
          have h0 : lcMatches key (c :: t') = false := by
            have := h 0 (Nat.succ_pos m); simpa using this
          rw [replaceAll_cons, h0]
          simp only [Bool.false_eq_true, and_false, if_false]
          rw [ih t' (fun j hj => by
            have := h (j + 1) (Nat.succ_lt_succ hj); simpa using this)]
          simp

theorem replaceAll_take_eq (key repl : Str) {n : Nat} {t : Str}
    (h : ∀ j, j < n → lcMatches key (t.drop j) = false) :
    (replaceAll key repl t).take n = t.take n := by
  rw [replaceAll_skip key repl n t h, List.take_append_eq_append_take,
    List.take_take]
  rcases Nat.le_total n t.length with hle | hle
  · have h1 : (t.take n).length = n := by simp [hle]
    rw [h1]
    simp
  · have hd : t.drop n = [] := List.drop_eq_nil_of_le hle
    rw [hd, replaceAll_nil, List.take_nil, List.append_nil]
    simp [Nat.min_self]

theorem replaceAll_of_match {key u : Str} (repl : Str) (hk : key ≠ [])
    (h : lcMatches key u = true) :
    replaceAll key repl u = repl ++ replaceAll key repl (u.drop key.length) := by
  cases u with
  | nil =>
      have hlen := length_le_of_lcMatches h
      simp only [List.length_nil, Nat.le_zero] at hlen
      exact absurd (List.length_eq_zero.mp hlen) hk
  | cons c t => rw [replaceAll_cons, if_pos ⟨hk, h⟩]

theorem lcMatches_both {k₁ k₂ t : Str} (h₁ : lcMatches k₁ t = true)
    (h₂ : lcMatches k₂ t = true) : k₁ <+: k₂ ∨ k₂ <+: k₁ := by
  have e₁ := lcMatches_eq_true.mp h₁
  have e₂ := lcMatches_eq_true.mp h₂
  simp only [lcStr] at e₁ e₂
  rcases Nat.le_total k₁.length k₂.length with hle | hle
  · left
    have hk : k₂.take k₁.length = k₁ := by
      rw [← e₂, ← List.map_take, List.take_take, Nat.min_eq_left hle, e₁]
    exact hk ▸ List.take_prefix k₁.length k₂
  · right
    have hk : k₁.take k₂.length = k₂ := by
      rw [← e₁, ← List.map_take, List.take_take, Nat.min_eq_left hle, e₂]
    exact hk ▸ List.take_prefix k₂.length k₁

theorem lcMatches_cons_congr {key : Str} (hkey : key ≠ []) (c : Char)
    {u v : Str} (huv : u.take (key.length - 1) = v.take (key.length - 1)) :
    lcMatches key (c :: u) = lcMatches key (c :: v) := by
  obtain ⟨m, hm⟩ : ∃ m, key.length = m + 1 :=
    ⟨key.length - 1, by have := List.length_pos.mpr hkey; omega⟩
  unfold lcMatches
  rw [hm, List.take_succ_cons, List.take_succ_cons]
  rw [show u.take m = v.take m from by simpa [hm] using huv]

theorem lcMatches_take_append {key t s : Str} (h : lcMatches key t = true) :
    lcMatches key (t.take key.length ++ s) = true := by
  have hlen := length_le_of_lcMatches h
  rw [lcMatches_eq_true] at h ⊢
  rw [List.take_append_eq_append_take, List.take_take, Nat.min_self]
  have h1 : (t.take key.length).length = key.length := by simp [hlen]
  rw [h1, Nat.sub_self, List.take_zero, List.append_nil]
  exact h

theorem isHexKey_digit {k : Str} (hk : IsHexKey k) {j : Nat} (hj0 : 0 < j)
    (hjlt : j < k.length) : isLowerHexDigit (k[j]) = true := by
  obtain ⟨jj, rfl⟩ : ∃ jj, j = jj + 1 := ⟨j - 1, by omega⟩
  have hcons := isHexKey_eq_cons hk
  have htl : jj < k.tail.length := by
    have := isHexKey_length hk; omega
  have hstep : k[jj + 1] = k.tail[jj] := by
    rw [List.getElem_of_eq hcons hjlt]
    simp
  have hmem : k[jj + 1] ∈ k.tail := by
    rw [hstep]; exact List.getElem_mem htl
  exact hk.2.2 _ hmem

theorem lcMatches_drop_inner {k₁ k₂ t : Str} (hk₁ : IsHexKey k₁)
    (hk₂ : IsHexKey k₂) (h₂ : lcMatches k₂ t = true) {j : Nat}
    (hj0 : 0 < j) (hjlt : j < k₂.length) :
    lcMatches k₁ (t.drop j) = false := by
  have hlen := length_le_of_lcMatches h₂
  have hjt : j < t.length := lt_of_lt_of_le hjlt hlen
  have e₂ := lcMatches_eq_true.mp h₂
  simp only [lcStr] at e₂
  have e2j : lowHex (t[j]) = k₂[j] := by
    have h1 : (List.map lowHex (t.take k₂.length))[j]? = k₂[j]? := by
      rw [e₂]
    rw [List.getElem?_map, List.getElem?_take_of_lt hjlt,
      List.getElem?_eq_getElem hjt, List.getElem?_eq_getElem hjlt] at h1
    simpa using h1
  have hdig : isLowerHexDigit (k₂[j]) = true := isHexKey_digit hk₂ hj0 hjlt
  have hne : t[j] ≠ '#' := by
    intro he
    rw [he, lowHex_hash] at e2j
    rw [← e2j] at hdig
    exact absurd hdig (by decide)
  rw [List.drop_eq_getElem_cons hjt]
  exact lcMatches_eq_false_of_ne_hash hk₁ hne

theorem lcMatches_hash_replaceAll {k₁ k₂ r₂ t' : Str} (hk₁ : IsHexKey k₁)
    (hk₂ : IsHexKey k₂) (hr₂ : GoodRepl r₂)
    (h : lcMatches k₁ ('#' :: replaceAll k₂ r₂ t') = true) :
    lcMatches k₁ ('#' :: t') = true := by
  by_cases hex : ∃ j, j < k₁.length - 1 ∧ lcMatches k₂ (t'.drop j) = true
  · exfalso
    obtain ⟨hj₀lt, hj₀m⟩ := Nat.find_spec hex
    set j₀ := Nat.find hex with hj₀def
    have hmin : ∀ i, i < j₀ → lcMatches k₂ (t'.drop i) = false := by
      intro i hi
      have hni := Nat.find_min hex hi
      cases hb : lcMatches k₂ (t'.drop i) with
      | false => rfl
      | true => exact absurd ⟨by omega, hb⟩ hni
    have hk₂ne := isHexKey_ne_nil hk₂
    have hk₂pos : 0 < k₂.length := List.length_pos.mpr hk₂ne
    have hdlen := length_le_of_lcMatches hj₀m
    have hj₀t : j₀ < t'.length := by
      simp only [List.length_drop] at hdlen; omega
    have hsplit := replaceAll_skip k₂ r₂ j₀ t' hmin
    have hmatch := replaceAll_of_match r₂ hk₂ne hj₀m
    obtain ⟨c, cs, hr₂c⟩ := List.exists_cons_of_ne_nil hr₂.1
    have e₁ := lcMatches_eq_true.mp h
    simp only [lcStr] at e₁
    have hj₀k : j₀ + 1 < k₁.length := by omega
    have h1 : (List.map lowHex
        (('#' :: replaceAll k₂ r₂ t').take k₁.length))[j₀ + 1]? = k₁[j₀ + 1]? := by
      rw [e₁]
    rw [List.getElem?_map, List.getElem?_take_of_lt hj₀k,
      List.getElem?_cons_succ] at h1
    rw [hsplit, hmatch, hr₂c] at h1
    have hlen_take : (t'.take j₀).length = j₀ := by
      simp [Nat.le_of_lt hj₀t]
    rw [List.getElem?_append_right (by omega), hlen_take, Nat.sub_self] at h1
    simp only [List.cons_append, List.getElem?_cons_zero, Option.map_some,
      List.getElem?_eq_getElem hj₀k] at h1
    have hdig := isHexKey_digit hk₁ (Nat.succ_pos j₀) hj₀k
    have hhead := hr₂.2.2
    rw [hr₂c] at hhead
    simp only [List.head?_cons, Option.all_some, Bool.not_eq_eq_eq_not,
      Bool.not_true] at hhead
    rw [← Option.some_inj.mp h1] at hdig
    rw [hdig] at hhead
    cases hhead
  · push_neg at hex
    have hnone : ∀ j, j < k₁.length - 1 → lcMatches k₂ (t'.drop j) = false := by
      intro j hj
      cases hb : lcMatches k₂ (t'.drop j) with
      | false => rfl
      | true => exact absurd hb (hex j hj)
    have htake := replaceAll_take_eq k₂ r₂ (t := t') hnone
    have hcongr := lcMatches_cons_congr (isHexKey_ne_nil hk₁) '#' htake
    rw [hcongr] at h
    exact h

theorem replaceAll_comm_match {k₁ r₁ k₂ r₂ : Str} (hk₁ : IsHexKey k₁)
    (hk₂ : IsHexKey k₂) (hr₂ : GoodRepl r₂) {c : Char} {t' : Str}
    (m2 : lcMatches k₂ (c :: t') = true) (m1 : lcMatches k₁ (c :: t') = false)
    (hrec : replaceAll k₁ r₁ (replaceAll k₂ r₂ ((c :: t').drop k₂.length))
        = replaceAll k₂ r₂ (replaceAll k₁ r₁ ((c :: t').drop k₂.length))) :
    replaceAll k₁ r₁ (replaceAll k₂ r₂ (c :: t'))
      = replaceAll k₂ r₂ (replaceAll k₁ r₁ (c :: t')) := by
  have hk₂ne := isHexKey_ne_nil hk₂
  have hL : replaceAll k₂ r₂ (c :: t')
      = r₂ ++ replaceAll k₂ r₂ ((c :: t').drop k₂.length) :=
    replaceAll_of_match r₂ hk₂ne m2
  have hnom : ∀ j, j < k₂.length → lcMatches k₁ ((c :: t').drop j) = false := by
    intro j hj
    cases Nat.eq_zero_or_pos j with
    | inl h0 => subst h0; simpa using m1
    | inr hpos => exact lcMatches_drop_inner hk₁ hk₂ m2 hpos hj
  have hR1 : replaceAll k₁ r₁ (c :: t')
      = (c :: t').take k₂.length ++ replaceAll k₁ r₁ ((c :: t').drop k₂.length) :=
    replaceAll_skip k₁ r₁ k₂.length (c :: t') hnom
  have hm2' : lcMatches k₂ ((c :: t').take k₂.length
      ++ replaceAll k₁ r₁ ((c :: t').drop k₂.length)) = true :=
    lcMatches_take_append m2
  have hlen_take : ((c :: t').take k₂.length).length = k₂.length := by
    have hlb := length_le_of_lcMatches m2
    simp only [List.length_cons] at hlb
    simp [hlb]
  calc replaceAll k₁ r₁ (replaceAll k₂ r₂ (c :: t'))
      = replaceAll k₁ r₁ (r₂ ++ replaceAll k₂ r₂ ((c :: t').drop k₂.length)) := by
        rw [hL]
    _ = r₂ ++ replaceAll k₁ r₁ (replaceAll k₂ r₂ ((c :: t').drop k₂.length)) :=
        replaceAll_append_hashFree k₁ r₁ hk₁ r₂ _ hr₂.2.1
    _ = r₂ ++ replaceAll k₂ r₂ (replaceAll k₁ r₁ ((c :: t').drop k₂.length)) := by
        rw [hrec]
    _ = replaceAll k₂ r₂ ((c :: t').take k₂.length
          ++ replaceAll k₁ r₁ ((c :: t').drop k₂.length)) := by
        rw [replaceAll_of_match r₂ hk₂ne hm2', List.drop_left' hlen_take]
    _ = replaceAll k₂ r₂ (replaceAll k₁ r₁ (c :: t')) := by rw [← hR1]

theorem replaceAll_comm {k₁ r₁ k₂ r₂ : Str} (hk₁ : IsHexKey k₁)
    (hk₂ : IsHexKey k₂) (hr₁ : GoodRepl r₁) (hr₂ : GoodRepl r₂)
    (h12 : ¬ k₁ <+: k₂) (h21 : ¬ k₂ <+: k₁) (t : Str) :
    replaceAll k₁ r₁ (replaceAll k₂ r₂ t)
      = replaceAll k₂ r₂ (replaceAll k₁ r₁ t) := by
  have main : ∀ (n : Nat) (t : Str), t.length ≤ n →
      replaceAll k₁ r₁ (replaceAll k₂ r₂ t)
        = replaceAll k₂ r₂ (replaceAll k₁ r₁ t) := by
    intro n
    induction n with
    | zero =>
        intro t ht
        have : t = [] := List.length_eq_zero.mp (Nat.le_zero.mp ht)
        subst this; rfl
    | succ m ih =>
        intro t ht
        cases t with
        | nil => rfl
        | cons c t' =>
            have hk₁ne := isHexKey_ne_nil hk₁
            have hk₂ne := isHexKey_ne_nil hk₂
            have hk₁pos : 0 < k₁.length := List.length_pos.mpr hk₁ne
            have hk₂pos : 0 < k₂.length := List.length_pos.mpr hk₂ne
            simp only [List.length_cons] at ht
            by_cases m2 : lcMatches k₂ (c :: t') = true
            · have m1 : lcMatches k₁ (c :: t') = false := by
                cases hb : lcMatches k₁ (c :: t') with
                | false => rfl
                | true =>
                    rcases lcMatches_both hb m2 with h | h
                    · exact absurd h h12
                    · exact absurd h h21
              refine replaceAll_comm_match hk₁ hk₂ hr₂ m2 m1 (ih _ ?_)
              simp only [List.length_drop, List.length_cons]
              omega
            · have m2f : lcMatches k₂ (c :: t') = false := by
                cases hb : lcMatches k₂ (c :: t') with
                | false => rfl
                | true => exact absurd hb m2
              by_cases m1 : lcMatches k₁ (c :: t') = true
              · refine (replaceAll_comm_match hk₂ hk₁ hr₁ m1 m2f (ih _ ?_).symm).symm
                simp only [List.length_drop, List.length_cons]
                omega
              · have m1f : lcMatches k₁ (c :: t') = false := by
                  cases hb : lcMatches k₁ (c :: t') with
                  | false => rfl
                  | true => exact absurd hb m1
                have e2 : replaceAll k₂ r₂ (c :: t') = c :: replaceAll k₂ r₂ t' := by
                  rw [replaceAll_cons, m2f]; simp
                have e1 : replaceAll k₁ r₁ (c :: t') = c :: replaceAll k₁ r₁ t' := by
                  rw [replaceAll_cons, m1f]; simp
                have hnm1 : lcMatches k₁ (c :: replaceAll k₂ r₂ t') = false := by
                  by_cases hc : c = '#'
                  · subst hc
                    cases hb : lcMatches k₁ ('#' :: replaceAll k₂ r₂ t') with
                    | false => rfl
                    | true =>
                        have := lcMatches_hash_replaceAll hk₁ hk₂ hr₂ hb
                        rw [m1f] at this
                        cases this
                  · exact lcMatches_eq_false_of_ne_hash hk₁ hc
                have hnm2 : lcMatches k₂ (c :: replaceAll k₁ r₁ t') = false := by
                  by_cases hc : c = '#'
                  · subst hc
                    cases hb : lcMatches k₂ ('#' :: replaceAll k₁ r₁ t') with
                    | false => rfl
                    | true =>
                        have := lcMatches_hash_replaceAll hk₂ hk₁ hr₁ hb
                        rw [m2f] at this
                        cases this
                  · exact lcMatches_eq_false_of_ne_hash hk₂ hc
                have u1 : replaceAll k₁ r₁ (c :: replaceAll k₂ r₂ t')
                    = c :: replaceAll k₁ r₁ (replaceAll k₂ r₂ t') := by
                  rw [replaceAll_cons, hnm1]; simp
                have u2 : replaceAll k₂ r₂ (c :: replaceAll k₁ r₁ t')
                    = c :: replaceAll k₂ r₂ (replaceAll k₁ r₁ t') := by
                  rw [replaceAll_cons, hnm2]; simp
                rw [e2, e1, u1, u2, ih t' (by omega)]
  exact main t.length t (Nat.le_refl _)

theorem goodRepl_varWrap {v : Str} (hv : '#' ∉ v) : GoodRepl (varWrap v) := by
  refine ⟨by simp [varWrap], ?_, by rfl⟩
  intro hmem
  simp only [varWrap, List.mem_append] at hmem
  rcases hmem with (h | h) | h
  · exact absurd h (by decide)
  · exact hv h
  · exact absurd h (by decide)

theorem applyReplacements_fst (m : List (Str × Str)) (t : Str) :
    (applyReplacements m t).1 = applyText m t := by
  suffices h : ∀ acc : Str × Nat,
      (m.foldl replaceStep acc).1
        = m.foldl (fun a kv => replaceAll kv.1 (varWrap kv.2) a) acc.1 by
    exact h (t, 0)
  induction m with
  | nil => intro acc; rfl
  | cons kv rest ih =>
      intro acc
      rw [List.foldl_cons, List.foldl_cons, ih]
      rfl

theorem applyText_perm {m m' : List (Str × Str)} (hperm : m.Perm m')
    (hkey : ∀ p ∈ m, IsHexKey p.1) (hvar : ∀ p ∈ m, '#' ∉ p.2)
    (hfree : ∀ p ∈ m, ∀ q ∈ m, p = q ∨ (¬ p.1 <+: q.1 ∧ ¬ q.1 <+: p.1))
    (t : Str) : applyText m t = applyText m' t := by
  unfold applyText
  refine hperm.foldl_eq' ?_ t
  intro p hp q hq z
  rcases hfree p hp q hq with rfl | ⟨h1, h2⟩
  · rfl
  · exact replaceAll_comm (hkey q hq) (hkey p hp)
      (goodRepl_varWrap (hvar q hq)) (goodRepl_varWrap (hvar p hp)) h2 h1 z

/-! ## Helper lemmas: clustering -/

theorem deltaESq_self (x : LabC) : deltaESq x x = 0 := by
  simp [deltaESq]

theorem deltaESq_comm (x y : LabC) : deltaESq x y = deltaESq y x := by
  unfold deltaESq; ring

theorem withinThreshold_self (x : LabC) : withinThreshold x x = true := by
  simp [withinThreshold, deltaESq_self]

theorem clusterHexes_append_single (labOf : String → Option LabC)
    (pre : List String) (L : String) :
    clusterHexes labOf (pre ++ [L])
      = clusterStep labOf (clusterHexes labOf pre) L := by
  unfold clusterHexes
  rw [List.foldl_append]
  rfl

theorem clusterStep_skip (labOf : String → Option LabC) (st : ClusterState)
    (hex : String) (h : labOf hex = none) : clusterStep labOf st hex = st := by
  unfold clusterStep; rw [h]

theorem clusterStep_found (labOf : String → Option LabC) (st : ClusterState)
    (hex : String) (lab : LabC) (c : String) (h1 : labOf hex = some lab)
    (h2 : findCanonical lab st.clusters = some c) :
    clusterStep labOf st hex
      = { st with hexToCanonical := st.hexToCanonical ++ [(hex, c)] } := by
  unfold clusterStep
  rw [h1]
  dsimp only
  rw [h2]

theorem clusterStep_new (labOf : String → Option LabC) (st : ClusterState)
    (hex : String) (lab : LabC) (h1 : labOf hex = some lab)
    (h2 : findCanonical lab st.clusters = none) :
    clusterStep labOf st hex
      = ⟨st.clusters ++ [(hex, lab)], st.hexToCanonical ++ [(hex, hex)]⟩ := by
  unfold clusterStep
  rw [h1]
  dsimp only
  rw [h2]

theorem findCanonical_some {lab : LabC} :
    ∀ {cs : List (String × LabC)} {c : String}, findCanonical lab cs = some c →
      ∃ i : Fin cs.length, (cs.get i).1 = c
        ∧ withinThreshold lab (cs.get i).2 = true
        ∧ ∀ j : Fin cs.length, (j : Nat) < (i : Nat) →
            withinThreshold lab (cs.get j).2 = false := by
  intro cs
  induction cs with
  | nil => intro c h; simp [findCanonical] at h
  | cons p rest ih =>
      intro c h
      obtain ⟨ch, cl⟩ := p
      by_cases hw : withinThreshold lab cl = true
      · rw [findCanonical, if_pos hw] at h
        refine ⟨⟨0, by simp⟩, by simpa using Option.some_inj.mp h,
          by simpa using hw, ?_⟩
        intro j hj
        simp at hj
      · have hwf : withinThreshold lab cl = false := by
          cases hb : withinThreshold lab cl with
          | false => rfl
          | true => exact absurd hb hw
        rw [findCanonical, if_neg (by simp [hwf])] at h
        obtain ⟨i, hi1, hi2, hi3⟩ := ih h
        refine ⟨i.succ, by simpa using hi1, by simpa using hi2, ?_⟩
        intro j hj
        rcases Fin.eq_zero_or_eq_succ j with rfl | ⟨jj, rfl⟩
        · simpa using hwf
        · have hlt : (jj : Nat) < (i : Nat) := by
            simpa [Fin.val_succ] using hj
          simpa using hi3 jj hlt

theorem findCanonical_none {lab : LabC} :
    ∀ {cs : List (String × LabC)}, findCanonical lab cs = none ↔
      ∀ p ∈ cs, withinThreshold lab p.2 = false := by
  intro cs
  induction cs with
  | nil => simp [findCanonical]
  | cons p rest ih =>
      obtain ⟨ch, cl⟩ := p
      constructor
      · intro h q hq
        by_cases hw : withinThreshold lab cl = true
        · rw [findCanonical, if_pos hw] at h; cases h
        · have hwf : withinThreshold lab cl = false := by
            cases hb : withinThreshold lab cl with
            | false => rfl
            | true => exact absurd hb hw
          rw [findCanonical, if_neg (by simp [hwf])] at h
          rcases List.mem_cons.mp hq with rfl | hq'
          · simpa using hwf
          · exact ih.mp h q hq'
      · intro h
        have hwf : withinThreshold lab cl = false := by
          simpa using h (ch, cl) (List.mem_cons_self _ _)
        rw [findCanonical, if_neg (by simp [hwf])]
        exact ih.mpr (fun q hq => h q (List.mem_cons_of_mem _ hq))

theorem clusterHexes_clusters_pairwise (labOf : String → Option LabC)
    (hexes : List String) :
    (clusterHexes labOf hexes).clusters.Pairwise
      (fun p q => withinThreshold q.2 p.2 = false) := by
  suffices h : ∀ st : ClusterState,
      st.clusters.Pairwise (fun p q => withinThreshold q.2 p.2 = false) →
      (hexes.foldl (clusterStep labOf) st).clusters.Pairwise
        (fun p q => withinThreshold q.2 p.2 = false) by
    exact h ⟨[], []⟩ (by simp)
  induction hexes with
  | nil => intro st h; exact h
  | cons x xs ih =>
      intro st h
      rw [List.foldl_cons]
      apply ih
      cases hlo : labOf x with
      | none => rw [clusterStep_skip labOf st x hlo]; exact h
      | some lab =>
          cases hfc : findCanonical lab st.clusters with
          | some ch => rw [clusterStep_found labOf st x lab ch hlo hfc]; exact h
          | none =>
              rw [clusterStep_new labOf st x lab hlo hfc]
              show (st.clusters ++ [(x, lab)]).Pairwise _
              rw [List.pairwise_append]
              refine ⟨h, List.pairwise_singleton _ _, ?_⟩
              intro p hp q hq
              have : q = (x, lab) := by simpa using hq
              subst this
              exact findCanonical_none.mp hfc p hp

/-! ## Helper lemmas: mapping store, replace phase -/

theorem jsonToStr_map_str (vs : List String) :
    (vs.map Json.str).mapM jsonToStr = some vs := by
  induction vs with
  | nil => rfl
  | cons v vs ih =>
      rw [List.map_cons, List.mapM_cons, ih]
      rfl

theorem foldl_replaceStep_fixed :
    ∀ (m : List (Str × Str)) (cnt : Nat) (t : Str),
      (∀ p ∈ m, hasCIMatch p.1 t = false) →
      (m.foldl replaceStep (t, cnt)).1 = t := by
  intro m
  induction m with
  | nil => intro cnt t _; rfl
  | cons kv rest ih =>
      intro cnt t h
      rw [List.foldl_cons]
      have hid : replaceAll kv.1 (varWrap kv.2) t = t :=
        replaceAll_eq_self_of_no_match (h kv (List.mem_cons_self _ _))
      have hstep : replaceStep (t, cnt) kv
          = (t, if countOccur kv.1 t < countOccur (varWrap kv.2) t
                then cnt + countOccur (varWrap kv.2) t else cnt) := by
        simp only [replaceStep]
        rw [hid]
      rw [hstep]
      exact ih _ t (fun p hp => h p (List.mem_cons_of_mem _ hp))

theorem buildHexToVar_fails {canonToVar : List (String × String)} :
    ∀ {m : List (String × List String)} {c : String} {hs : List String},
      (c, hs) ∈ m → List.lookup (canonCssHex c) canonToVar = none →
      ∃ c' hs', (c', hs') ∈ m
        ∧ List.lookup (canonCssHex c') canonToVar = none
        ∧ buildHexToVar canonToVar m
            = .error ("No variable name found in colours.css for canonical hex "
                ++ c') := by
  intro m
  induction m with
  | nil => intro c hs h; simp at h
  | cons p rest ih =>
      intro c hs hmem hnone
      obtain ⟨pc, phs⟩ := p
      by_cases hp : List.lookup (canonCssHex pc) canonToVar = none
      · refine ⟨pc, phs, List.mem_cons_self _ _, hp, ?_⟩
        rw [buildHexToVar, hp]
      · obtain ⟨v, hv⟩ : ∃ v, List.lookup (canonCssHex pc) canonToVar = some v := by
          cases hl : List.lookup (canonCssHex pc) canonToVar with
          | none => exact absurd hl hp
          | some v => exact ⟨v, rfl⟩
        have hmem' : (c, hs) ∈ rest := by
          rcases List.mem_cons.mp hmem with he | hr
          · rw [Prod.mk.injEq] at he
            rw [he.1] at hnone
            exact absurd hnone hp
          · exact hr
        obtain ⟨c', hs', hcm, hcn, hce⟩ := ih hmem' hnone
        refine ⟨c', hs', List.mem_cons_of_mem _ hcm, hcn, ?_⟩
        rw [buildHexToVar, hv]
        dsimp only
        rw [hce]

theorem replacePhase_of_buildHexToVar_error {canonToVar : List (String × String)}
    {m : List (String × List String)} {files : List Str} {e : String}
    (h : buildHexToVar canonToVar m = .error e) :
    replacePhase canonToVar m files = .error e := by
  unfold replacePhase
  rw [h]

/-! ## Claims -/

/-- **C1.**  During clustering, each literal is compared against the existing
clusters' canonical perceptual colors in cluster-creation order: if some
cluster's canonical is strictly within the Delta-E threshold (`deltaESq <
100`, i.e. `delta_e < 10.0`), the literal is assigned to the *first* such
cluster (witnessed by the index `i` with all earlier clusters failing the
test), the cluster list is unchanged, and in particular the literal does not
become a canonical; if no cluster is strictly within the threshold, a new
cluster is created with the literal as canonical.  The final conjunct records
that the threshold comparison is strict. -/
theorem clusterHexes_first_fit (labOf : String → Option LabC)
    (pre : List String) (L : String) (lab : LabC)
    (hlab : labOf L = some lab) :
    ((∀ c, findCanonical lab (clusterHexes labOf pre).clusters = some c →
        (clusterHexes labOf (pre ++ [L])).clusters
            = (clusterHexes labOf pre).clusters
        ∧ (clusterHexes labOf (pre ++ [L])).hexToCanonical
            = (clusterHexes labOf pre).hexToCanonical ++ [(L, c)]
        ∧ ∃ i : Fin (clusterHexes labOf pre).clusters.length,
            ((clusterHexes labOf pre).clusters.get i).1 = c
            ∧ withinThreshold lab
                ((clusterHexes labOf pre).clusters.get i).2 = true
            ∧ ∀ j : Fin (clusterHexes labOf pre).clusters.length,
                (j : Nat) < (i : Nat) →
                withinThreshold lab
                  ((clusterHexes labOf pre).clusters.get j).2 = false)
    ∧ (findCanonical lab (clusterHexes labOf pre).clusters = none →
        (clusterHexes labOf (pre ++ [L])).clusters
            = (clusterHexes labOf pre).clusters ++ [(L, lab)]
        ∧ (clusterHexes labOf (pre ++ [L])).hexToCanonical
            = (clusterHexes labOf pre).hexToCanonical ++ [(L, L)]
        ∧ ∀ p ∈ (clusterHexes labOf pre).clusters,
            withinThreshold lab p.2 = false))
    ∧ (∀ x y : LabC, withinThreshold x y = true ↔ deltaESq x y < 100) := by
  refine ⟨⟨?_, ?_⟩, ?_⟩
  · intro c hfc
    rw [clusterHexes_append_single,
      clusterStep_found labOf _ L lab c hlab hfc]
    exact ⟨rfl, rfl, findCanonical_some hfc⟩
  · intro hfc
    rw [clusterHexes_append_single, clusterStep_new labOf _ L lab hlab hfc]
    exact ⟨rfl, rfl, findCanonical_none.mp hfc⟩
  · intro x y
    simp [withinThreshold]

theorem clusterHexes_first_fit_witness :
    (clusterHexes (hexLabOf toLab0) (["#000000"] ++ ["#abc"])).clusters
        = (clusterHexes (hexLabOf toLab0) ["#000000"]).clusters
    ∧ (clusterHexes (hexLabOf toLab0) (["#000000"] ++ ["#abc"])).hexToCanonical
        = (clusterHexes (hexLabOf toLab0) ["#000000"]).hexToCanonical
          ++ [("#abc", "#000000")] := by
  have h := clusterHexes_first_fit (hexLabOf toLab0) ["#000000"] "#abc"
    ⟨0, 0, 0⟩ rfl
  have h000 : clusterHexes (hexLabOf toLab0) ["#000000"]
      = ⟨[("#000000", ⟨0, 0, 0⟩)], [("#000000", "#000000")]⟩ := by
    unfold clusterHexes
    rw [List.foldl_cons, List.foldl_nil,
      clusterStep_new (hexLabOf toLab0) ⟨[], []⟩ "#000000" ⟨0, 0, 0⟩ rfl rfl]
    simp
  have hfc : findCanonical ⟨0, 0, 0⟩
      (clusterHexes (hexLabOf toLab0) ["#000000"]).clusters
      = some "#000000" := by
    rw [h000]
    show findCanonical ⟨0, 0, 0⟩ [("#000000", ⟨0, 0, 0⟩)] = some "#000000"
    rw [findCanonical, if_pos (withinThreshold_self _)]
  obtain ⟨h1, h2, -⟩ := h.1.1 "#000000" hfc
  exact ⟨h1, h2⟩

/-- **C2 counterexample.**  Two parseable literals at squared perceptual
distance `289 ≥ 100` (Delta-E `17 ≥ 10`) are nevertheless placed in the
*same* cluster, because each is within the threshold of the canonical
`#181818` (Delta-E 8 and 9).  The Lab values are integral approximations of
the true CIE Lab coordinates of these grays, supplied through the conversion
parameter `toLabC2`.  This refutes the claim that literals at distance ≥
threshold always end up in different clusters. -/
theorem clusterHexes_merges_far_literals :
    hexLabOf toLabC2 "#000000" = some ⟨0, 0, 0⟩
    ∧ hexLabOf toLabC2 "#2a2a2a" = some ⟨17, 0, 0⟩
    ∧ ¬ deltaESq ⟨0, 0, 0⟩ ⟨17, 0, 0⟩ < 100
    ∧ (clusterHexes (hexLabOf toLabC2)
        ["#181818", "#000000", "#2a2a2a"]).hexToCanonical
      = [("#181818", "#181818"), ("#000000", "#181818"),
         ("#2a2a2a", "#181818")] := by
  have h1 : hexLabOf toLabC2 "#181818" = some ⟨8, 0, 0⟩ := rfl
  have h2 : hexLabOf toLabC2 "#000000" = some ⟨0, 0, 0⟩ := rfl
  have h3 : hexLabOf toLabC2 "#2a2a2a" = some ⟨17, 0, 0⟩ := rfl
  have e1 : toLabC2 (channel2 '1' '8', channel2 '1' '8', channel2 '1' '8')
      = ⟨8, 0, 0⟩ := rfl
  have w1 : withinThreshold ⟨0, 0, 0⟩ ⟨8, 0, 0⟩ = true := by
    norm_num [withinThreshold, deltaESq]
  have w2 : withinThreshold ⟨17, 0, 0⟩ ⟨8, 0, 0⟩ = true := by
    norm_num [withinThreshold, deltaESq]
  refine ⟨h2, h3, by norm_num [deltaESq], ?_⟩
  simp only [clusterHexes, List.foldl, clusterStep, h1, h2, h3, e1,
    findCanonical, w1, w2, if_true, List.nil_append, List.append_assoc,
    List.singleton_append]
  rfl

/-- **C2 (amended).**  What the greedy algorithm does guarantee: any two
*canonical* literals of distinct clusters are at perceptual distance ≥ the
threshold (a cluster is only created when its canonical fails the strict
threshold test against every earlier canonical).  Members of one cluster,
however, are only guaranteed to be within the threshold of their canonical,
not of each other, as the counterexample shows. -/
theorem clusterHexes_canonicals_separated (labOf : String → Option LabC)
    (hexes : List String) :
    (clusterHexes labOf hexes).clusters.Pairwise
      (fun p q => ¬ deltaESq p.2 q.2 < 100 ∧ ¬ deltaESq q.2 p.2 < 100) := by
  have h := clusterHexes_clusters_pairwise labOf hexes
  refine h.imp ?_
  intro p q hw
  have hq : ¬ deltaESq q.2 p.2 < 100 := by
    simpa [withinThreshold] using hw
  exact ⟨by rw [deltaESq_comm]; exact hq, hq⟩

/-- **C3 (code bug).**  Clustering is a deterministic function of the
*enumeration order* of the literals, but not of the literal *set*: the same
two parseable literals, presented in the two orders a `HashMap` key
iteration may produce, yield different cluster lists with different
canonicals (under every RGB→Lab conversion, since `#000` and `#000000`
parse to the same RGB).  The source iterates `counts.keys()` of a
`std::collections::HashMap`, whose order is randomized per process, so the
claimed run-to-run determinism fails. -/
theorem clusterHexes_order_dependent (toLab : Nat × Nat × Nat → LabC) :
    (clusterHexes (hexLabOf toLab) ["#000", "#000000"]).clusters.map Prod.fst
        = ["#000"]
    ∧ (clusterHexes (hexLabOf toLab) ["#000000", "#000"]).clusters.map Prod.fst
        = ["#000000"]
    ∧ ["#000", "#000000"].Perm ["#000000", "#000"] := by
  have h1 : hexLabOf toLab "#000" = some (toLab (0, 0, 0)) := rfl
  have h2 : hexLabOf toLab "#000000" = some (toLab (0, 0, 0)) := rfl
  refine ⟨?_, ?_, by decide⟩
  · have st1 : clusterHexes (hexLabOf toLab) ["#000"]
        = ⟨[("#000", toLab (0, 0, 0))], [("#000", "#000")]⟩ := by
      unfold clusterHexes
      rw [List.foldl_cons, List.foldl_nil,
        clusterStep_new (hexLabOf toLab) ⟨[], []⟩ "#000" (toLab (0, 0, 0)) h1 rfl]
      simp
    have hfc : findCanonical (toLab (0, 0, 0))
        (clusterHexes (hexLabOf toLab) ["#000"]).clusters = some "#000" := by
      rw [st1]
      show findCanonical (toLab (0, 0, 0)) [("#000", toLab (0, 0, 0))]
          = some "#000"
      rw [findCanonical, if_pos (withinThreshold_self _)]
    rw [show ["#000", "#000000"] = ["#000"] ++ ["#000000"] from rfl,
      clusterHexes_append_single,
      clusterStep_found (hexLabOf toLab) _ "#000000" (toLab (0, 0, 0)) "#000"
        h2 hfc, st1]
    simp
  · have st1 : clusterHexes (hexLabOf toLab) ["#000000"]
        = ⟨[("#000000", toLab (0, 0, 0))], [("#000000", "#000000")]⟩ := by
      unfold clusterHexes
      rw [List.foldl_cons, List.foldl_nil,
        clusterStep_new (hexLabOf toLab) ⟨[], []⟩ "#000000" (toLab (0, 0, 0))
          h2 rfl]
      simp
    have hfc : findCanonical (toLab (0, 0, 0))
        (clusterHexes (hexLabOf toLab) ["#000000"]).clusters
        = some "#000000" := by
      rw [st1]
      show findCanonical (toLab (0, 0, 0)) [("#000000", toLab (0, 0, 0))]
          = some "#000000"
      rw [findCanonical, if_pos (withinThreshold_self _)]
    rw [show ["#000000", "#000"] = ["#000000"] ++ ["#000"] from rfl,
      clusterHexes_append_single,
      clusterStep_found (hexLabOf toLab) _ "#000" (toLab (0, 0, 0)) "#000000"
        h1 hfc, st1]
    simp

/-- **C4 counterexample.**  An 8-digit literal is *not* parsed by taking its
first 6 digits: the clustering parser rejects it outright (`_ => continue`),
and consequently it is dropped from clustering instead of participating like
a 6-digit literal. -/
theorem parseHexRgb_eight_digit_dropped :
    parseHexRgb "#11223344" = none
    ∧ clusterHexes (hexLabOf toLab0) ["#11223344"] = ⟨[], []⟩ := by
  constructor
  · rfl
  · unfold clusterHexes
    rw [List.foldl_cons, List.foldl_nil,
      clusterStep_skip (hexLabOf toLab0) ⟨[], []⟩ "#11223344" rfl]

/-- **C4 (amended).**  The clustering hex parser accepts exactly the literals
with 3 or 6 hex digits after stripping the leading `#`: 3-digit literals
expand each nibble by duplication (`#abc` → `(0xAA, 0xBB, 0xCC)`), 6-digit
literals parse digit pairs, and any other length — including the 8-digit
literals matched by the scanning regex — yields `none`; a literal whose Lab
value is `none` is skipped by the clustering loop entirely. -/
theorem parseHexRgb_lengths :
    (∀ s : String, (stripHash s).length ≠ 3 → (stripHash s).length ≠ 6 →
        parseHexRgb s = none)
    ∧ parseHexRgb "#abc" = some (170, 187, 204)
    ∧ parseHexRgb "#112233" = some (17, 34, 51)
    ∧ (stripHash "#11223344").length = 8
    ∧ (∀ (toLab : Nat × Nat × Nat → LabC) (xs ys : List String) (h : String),
        hexLabOf toLab h = none →
        clusterHexes (hexLabOf toLab) (xs ++ h :: ys)
          = clusterHexes (hexLabOf toLab) (xs ++ ys)) := by
  refine ⟨?_, by decide, by decide, by decide, ?_⟩
  · intro s h3 h6
    unfold parseHexRgb
    split
    next a b c heq => exact absurd (by rw [heq] ; rfl) h3
    next r1 r2 g1 g2 b1 b2 heq => exact absurd (by rw [heq] ; rfl) h6
    next => rfl
  · intro toLab xs ys h hnone
    unfold clusterHexes
    rw [List.foldl_append, List.foldl_cons,
      clusterStep_skip (hexLabOf toLab) _ h hnone, ← List.foldl_append]

theorem parseHexRgb_lengths_witness :
    parseHexRgb "#11223344" = none
    ∧ clusterHexes (hexLabOf toLab0) (["#fff"] ++ "#11223344" :: [])
        = clusterHexes (hexLabOf toLab0) (["#fff"] ++ []) := by
  have h := parseHexRgb_lengths
  exact ⟨h.1 "#11223344" (by decide) (by decide),
    h.2.2.2.2 toLab0 ["#fff"] [] "#11223344" (by decide)⟩

/-- **C5 counterexample.**  The replacement engine is *not* order-independent
for every mapping: with the two legitimate literals `#abc` (3-digit) and
`#abcdef` (6-digit) in the mapping — the former a case-insensitive prefix of
the latter — the text `#abcdef` rewrites to different results depending on
the iteration order, and in one order the replacement matches only part of
the longer hex literal, corrupting it to `var(--color-x)def`. -/
theorem applyReplacements_order_dependent :
    (applyReplacements
        [("#abc".data, "--color-x".data), ("#abcdef".data, "--color-y".data)]
        "#abcdef".data).1 = "var(--color-x)def".data
    ∧ (applyReplacements
        [("#abcdef".data, "--color-y".data), ("#abc".data, "--color-x".data)]
        "#abcdef".data).1 = "var(--color-y)".data
    ∧ "var(--color-x)def".data ≠ "var(--color-y)".data := by decide

/-- **C5 (amended).**  If no mapped literal is a (case-insensitive) prefix of
another mapped literal, applying the per-literal substitutions in any
iteration order of the mapping yields the same final text; the `var(...)`
wrapper is never re-matched by a later iteration because it contains no `#`
and starts with `v`.  (When one mapped literal *is* a prefix of another —
possible, since 3- and 6-digit literals coexist — order-dependence and
partial-match corruption occur, as the counterexample shows.) -/
theorem applyReplacements_perm_invariant {m m' : List (Str × Str)}
    (hperm : m.Perm m') (hkey : ∀ p ∈ m, IsHexKey p.1)
    (hvar : ∀ p ∈ m, '#' ∉ p.2)
    (hfree : ∀ p ∈ m, ∀ q ∈ m, p = q ∨ (¬ p.1 <+: q.1 ∧ ¬ q.1 <+: p.1))
    (t : Str) :
    (applyReplacements m t).1 = (applyReplacements m' t).1 := by
  rw [applyReplacements_fst, applyReplacements_fst]
  exact applyText_perm hperm hkey hvar hfree t

theorem applyReplacements_perm_invariant_witness :
    (applyReplacements
        [("#ff0000".data, "--color-red".data),
         ("#00ff00".data, "--color-lime".data)]
        "a: #FF0000; b: #00ff00;".data).1
      = (applyReplacements
        [("#00ff00".data, "--color-lime".data),
         ("#ff0000".data, "--color-red".data)]
        "a: #FF0000; b: #00ff00;".data).1 := by
  apply applyReplacements_perm_invariant
  · decide
  · decide
  · decide
  · decide

/-- **C6.**  The mapping store round-trips: serializing a (non-empty)
canonical mapping to a JSON document and deserializing it returns exactly
the same association — in particular the set of canonical keys and each
canonical's member set are preserved (here even membership order is
preserved at the document level; only the surrounding `HashMap` key order is
arbitrary, which equality of the association list up to its given
enumeration covers). -/
theorem loadMapping_saveMapping_roundtrip (m : List (String × List String))
    (_hm : m ≠ []) : loadMapping (saveMapping m) = some m := by
  clear _hm
  induction m with
  | nil => rfl
  | cons p rest ih =>
      obtain ⟨k, vs⟩ := p
      have hin : jsonToStrList (Json.arr (vs.map Json.str)) = some vs := by
        unfold jsonToStrList
        exact jsonToStr_map_str vs
      show ((k, Json.arr (vs.map Json.str))
          :: rest.map (fun p => (p.1, Json.arr (p.2.map Json.str)))).mapM
            (fun p => (jsonToStrList p.2).map (fun ss => (p.1, ss)))
          = some ((k, vs) :: rest)
      have ih' : (rest.map
            (fun p => (p.1, Json.arr (p.2.map Json.str)))).mapM
            (fun p => (jsonToStrList p.2).map (fun ss => (p.1, ss)))
          = some rest := ih
      rw [List.mapM_cons, ih']
      simp [hin]

theorem loadMapping_saveMapping_roundtrip_witness :
    loadMapping (saveMapping [("#ff0000", ["#ff0000", "#fe0101"])])
      = some [("#ff0000", ["#ff0000", "#fe0101"])] :=
  loadMapping_saveMapping_roundtrip _ (by decide)

/-- **C7.**  Running the replacement engine on text in which no mapped
literal occurs (case-insensitively) — e.g. a file already rewritten by a
previous run — changes nothing: the final text equals the input, and the
per-file outcome is (unchanged content, 0 replacements counted toward the
total, not counted as changed), because the rewrite guard
`file_replacements > 0 && replaced != content` fails. -/
theorem replace_second_run_no_change (m : List (Str × Str)) (t : Str)
    (h : ∀ p ∈ m, hasCIMatch p.1 t = false) :
    (applyReplacements m t).1 = t ∧ fileOutcome m t = (t, 0, false) := by
  have h1 : (applyReplacements m t).1 = t := foldl_replaceStep_fixed m 0 t h
  refine ⟨h1, ?_⟩
  simp only [fileOutcome]
  rw [if_neg]
  intro hcon
  exact hcon.2 h1

theorem replace_second_run_no_change_witness :
    (applyReplacements [("#ff0000".data, "--color-red".data)]
        "color: var(--color-red);".data).1 = "color: var(--color-red);".data
    ∧ fileOutcome [("#ff0000".data, "--color-red".data)]
        "color: var(--color-red);".data
      = ("color: var(--color-red);".data, 0, false) :=
  replace_second_run_no_change _ _ (by decide)

/-- **C8.**  In the replace phase, if the loaded mapping contains a canonical
literal for which the stylesheet table defines no identifier, building
`hex_to_var` fails and the whole phase returns the fatal error
`No variable name found in colours.css for canonical hex <literal>` naming a
canonical with a missing definition — the error is produced before the file
loop, so no file outcome is computed (the `Except` carries no rewritten
files). -/
theorem replacePhase_missing_canonical_fatal
    {canonToVar : List (String × String)} {m : List (String × List String)}
    {c : String} {hs : List String} (files : List Str)
    (hmem : (c, hs) ∈ m)
    (hmiss : List.lookup (canonCssHex c) canonToVar = none) :
    ∃ c' hs', (c', hs') ∈ m
      ∧ List.lookup (canonCssHex c') canonToVar = none
      ∧ replacePhase canonToVar m files
          = .error ("No variable name found in colours.css for canonical hex "
              ++ c') := by
  obtain ⟨c', hs', h1, h2, h3⟩ := buildHexToVar_fails hmem hmiss
  exact ⟨c', hs', h1, h2, replacePhase_of_buildHexToVar_error h3⟩

theorem replacePhase_missing_canonical_fatal_witness :
    ∃ c' hs', (c', hs') ∈ [("#00ff00", ["#00ff00"])]
      ∧ List.lookup (canonCssHex c') [("#ff0000", "--color-red")] = none
      ∧ replacePhase [("#ff0000", "--color-red")] [("#00ff00", ["#00ff00"])] []
          = .error ("No variable name found in colours.css for canonical hex "
              ++ c') :=
  replacePhase_missing_canonical_fatal []
    (List.mem_cons_self ("#00ff00", ["#00ff00"]) []) (by decide)

/-- **C9.**  The per-file replacement counter is not the number of
substitutions performed: on the text `var(--color-red) #ff0000`, one
substitution happens (`countCI` of the key is 1), but the counter adds the
number of `var(--color-red)` occurrences in the post-substitution text
(2, which exceeds the pre-substitution case-sensitive count 1 of the
literal), so the reported count 2 exceeds the 1 substitution actually
made. -/
theorem replacement_count_overreports :
    (applyReplacements [("#ff0000".data, "--color-red".data)]
        "var(--color-red) #ff0000".data).2 = 2
    ∧ countCI "#ff0000".data "var(--color-red) #ff0000".data = 1
    ∧ (applyReplacements [("#ff0000".data, "--color-red".data)]
        "var(--color-red) #ff0000".data).1
      = "var(--color-red) var(--color-red)".data
    ∧ countOccur (varWrap "--color-red".data)
        (replaceAll "#ff0000".data (varWrap "--color-red".data)
          "var(--color-red) #ff0000".data) = 2
    ∧ countOccur "#ff0000".data "var(--color-red) #ff0000".data = 1 := by
  decide

/-- **C10.**  Name resolution is not injective across clusters: the two
distinct canonical literals `#fe0000` and `#800000` are both nearest (by
squared Euclidean RGB distance) to the named color `red`, so both resolve to
`--color-red`, and the emitted canonical stylesheet defines the same
variable name twice with different hex values. -/
theorem resolveVar_not_injective :
    resolveVar cssColorNames "#fe0000" = "--color-red"
    ∧ resolveVar cssColorNames "#800000" = "--color-red"
    ∧ "#fe0000" ≠ "#800000"
    ∧ cssLines cssColorNames ["#fe0000", "#800000"]
        = ["    --color-red: #fe0000;", "    --color-red: #800000;"] := by
  decide
